import Mathlib

/-!
Verification of the PDF structure-extraction pipeline.

The development shallowly embeds the extraction pipeline of
`src/src/extractor.py` (span harvesting, feature encoding, block/level
classification plumbing, title resolution, outline assembly and title
de-duplication), the batch driver of `src/src/main.py`, and the
training-time feature encoder of `src/build_dataset.py`.

Machine floats are idealised as rationals.  The two injected LightGBM
classifiers are black boxes behind a stable contract; they are modelled
as arbitrary functions from a feature block to a label string (the
composition of `predict`, `argmax` and `inverse_transform`).  Pandas'
multi-column `sort_values` is a stable lexicographic sort; it is embedded
as a structurally recursive stable insertion sort (the output of a stable
sort is uniquely determined by the key, so any stable sort is
extensionally the same function).
-/

namespace PDF

/-- A raw text span as delivered by the external parser (PyMuPDF):
text, fractional font size, font name, bounding box, 1-based page. -/
structure Span where
  text : String
  size : Rat
  font : String
  bbox : Rat × Rat × Rat × Rat
  page_num : Nat
deriving DecidableEq

/-- One row of the feature table built by `PDFExtractor._get_text_blocks`:
stripped text, rounded font size, boldness flag, bounding box, page. -/
structure TextBlock where
  text : String
  font_size : Int
  is_bold : Bool
  bbox : Rat × Rat × Rat × Rat
  page_num : Nat
deriving DecidableEq

/-- One outline entry of the terminal artifact: level, text, page. -/
structure OutlineEntry where
  level : String
  text : String
  page : Nat
deriving DecidableEq

/-- The terminal artifact of one document: a title and an ordered outline. -/
structure ExtractionResult where
  title : String
  outline : List OutlineEntry
deriving DecidableEq

/-- A word as delivered by pdfplumber to `build_dataset.py`:
text, fractional size, font name, left edge, top edge. -/
structure Word where
  text : String
  size : Rat
  fontname : String
  x0 : Rat
  top : Rat
deriving DecidableEq

/-- Python's builtin `round`: round half to even (banker's rounding),
phrased over the numerator and denominator so that it is a pure integer
computation.  With `f` the floor of `q` and `r` the numerator of the
fractional part over denominator `den`, the fraction is below, above or
exactly one half according as `2 * r` compares to `den`. -/
def pyRound (q : Rat) : Int :=
  let f := Int.fdiv q.num q.den
  let r := q.num - f * (q.den : Int)
  if 2 * r < (q.den : Int) then f
  else if (q.den : Int) < 2 * r then f + 1
  else if f % 2 = 0 then f else f + 1

/-- Python's `str.strip()`: drop whitespace from both ends. -/
def pyStrip (s : String) : String :=
  String.mk (((s.data.dropWhile Char.isWhitespace).reverse.dropWhile
    Char.isWhitespace).reverse)

/-- The characters of a string, lowercased (Python's `str.lower()`). -/
def lowerChars (s : String) : List Char := s.data.map Char.toLower

/-- Substring test on character lists (Python's `in` on strings). -/
def hasSub (pat : List Char) : List Char → Bool
  | [] => pat.isEmpty
  | c :: rest => pat.isPrefixOf (c :: rest) || hasSub pat rest

/-- Case-insensitive substring test for the literal "bold", embedding
Python's `"bold" in span["font"].lower()`. -/
def containsBold (font : String) : Bool :=
  hasSub "bold".data (lowerChars font)

/-- The left edge of a bounding box, `bbox[0]` (the `x_indentation` feature). -/
def bboxX0 (b : TextBlock) : Rat := b.bbox.1

/-- The vertical top coordinate of a bounding box, `bbox[1]`
(the `bbox_y1` sort column of the extractor). -/
def bboxY1 (b : TextBlock) : Rat := b.bbox.2.1

/-- One feature row per span, as built inside `_get_text_blocks`:
the text is stripped, the fractional size is rounded with Python's
`round`, boldness comes from the font name. -/
def mkTextBlock (s : Span) : TextBlock :=
  { text := pyStrip s.text
    font_size := pyRound s.size
    is_bold := containsBold s.font
    bbox := s.bbox
    page_num := s.page_num }

/-- `_get_text_blocks`: keep the spans whose stripped text is non-empty,
and encode each kept span as one feature row. -/
def getTextBlocks (spans : List Span) : List TextBlock :=
  (spans.filter (fun s => decide (pyStrip s.text ≠ ""))).map mkTextBlock

/-- Stable insertion of an element into a list: the new element is placed
before the first element it compares `le` to, hence before every element
with an equivalent key. -/
def sInsert (le : α → α → Bool) (a : α) : List α → List α
  | [] => [a]
  | b :: bs => if le a b then a :: b :: bs else b :: sInsert le a bs

/-- Stable sort by the boolean comparison `le`; embeds pandas'
multi-column `sort_values`, which is a stable lexicographic sort. -/
def sSort (le : α → α → Bool) : List α → List α
  | [] => []
  | a :: as => sInsert le a (sSort le as)

/-- Lexicographic comparison by `(page_num ascending, vertical top
ascending)`: the sort key of `sort_values(by=['page_num', 'bbox_y1'])`. -/
def pageYLe (a b : TextBlock) : Bool :=
  decide (a.page_num < b.page_num ∨ (a.page_num = b.page_num ∧ bboxY1 a ≤ bboxY1 b))

/-- Lexicographic comparison by `(font_size descending, vertical top
ascending)`: the sort key of the title fallback,
`sort_values(by=['font_size', 'bbox_y1'], ascending=[False, True])`. -/
def fontDescLe (a b : TextBlock) : Bool :=
  decide (b.font_size < a.font_size ∨ (a.font_size = b.font_size ∧ bboxY1 a ≤ bboxY1 b))

/-- The page/vertical comparison lifted to a heading row paired with its
predicted level. -/
def pairLe (p q : TextBlock × String) : Bool := pageYLe p.1 q.1

/-- The page-1 restriction used by the title fallback:
`all_df[all_df['page_num'] == 1]`. -/
def firstPage (blocks : List TextBlock) : List TextBlock :=
  blocks.filter (fun b => decide (b.page_num = 1))

/-- `PDFExtractor._extract_title`: if some rows were classified Title,
sort them by `(page_num, bbox_y1)` and return the text of the first;
otherwise sort the page-1 rows by `(font_size desc, bbox_y1)` and return
the text of the first; an empty page 1 yields the empty string. -/
def extractTitle (titleBlocks allBlocks : List TextBlock) : String :=
  match (sSort pageYLe titleBlocks).head? with
  | some b => b.text
  | none =>
    match (sSort fontDescLe (firstPage allBlocks)).head? with
    | some b => b.text
    | none => ""

/-- The rows the block classifier labels exactly `'Title'`
(`df[df['block_label'] == 'Title']`). -/
def titleBlocksOf (bc : TextBlock → String) (blocks : List TextBlock) : List TextBlock :=
  blocks.filter (fun b => decide (bc b = "Title"))

/-- The resolved title of a classified document. -/
def titleOf (bc : TextBlock → String) (blocks : List TextBlock) : String :=
  extractTitle (titleBlocksOf bc blocks) blocks

/-- The rows the block classifier labels exactly `'heading'`
(`df[df['block_label'] == 'heading']`), each paired with the level the
level classifier assigns to it. -/
def headingPairs (bc lc : TextBlock → String) (blocks : List TextBlock) :
    List (TextBlock × String) :=
  (blocks.filter (fun b => decide (bc b = "heading"))).map (fun b => (b, lc b))

/-- The heading rows in stable `(page_num, bbox_y1)` order. -/
def sortedHeadings (hs : List (TextBlock × String)) : List (TextBlock × String) :=
  sSort pairLe hs

/-- The outline entry produced from one sorted heading row. -/
def outlineEntryOf (p : TextBlock × String) : OutlineEntry :=
  { level := p.2, text := p.1.text, page := p.1.page_num }

/-- `PDFExtractor._generate_outline`: stable sort by page then vertical
position, then project each row to a `{level, text, page}` entry. -/
def generateOutline (hs : List (TextBlock × String)) : List OutlineEntry :=
  (sortedHeadings hs).map outlineEntryOf

/-- The outline as assembled before title de-duplication: empty when no
row was labelled heading, otherwise `_generate_outline` on the labelled
heading rows. -/
def preOutline (bc lc : TextBlock → String) (blocks : List TextBlock) : List OutlineEntry :=
  if (blocks.filter (fun b => decide (bc b = "heading"))).isEmpty then []
  else generateOutline (headingPairs bc lc blocks)

/-- The title de-duplication step of `PDFExtractor.extract`:
`if title and outline and outline[0]['text'] == title: outline.pop(0)`. -/
def dedupTitle (title : String) (outline : List OutlineEntry) : List OutlineEntry :=
  match outline with
  | [] => []
  | e :: rest => if title ≠ "" ∧ e.text = title then rest else e :: rest

/-- `PDFExtractor.extract` on an already-encoded feature table: an empty
table short-circuits to the empty result; otherwise resolve the title,
assemble the outline, and de-duplicate the title at the outline's head. -/
def extract (bc lc : TextBlock → String) (blocks : List TextBlock) : ExtractionResult :=
  if blocks.isEmpty then { title := "", outline := [] }
  else
    { title := titleOf bc blocks
      outline := dedupTitle (titleOf bc blocks) (preOutline bc lc blocks) }

/-- `PDFExtractor.extract` from raw parser spans. -/
def extractDoc (bc lc : TextBlock → String) (spans : List Span) : ExtractionResult :=
  extract bc lc (getTextBlocks spans)

/-- The training-time `avg_size` feature of `build_dataset.process_line`:
the unrounded arithmetic mean of the word sizes of one line,
`sum(w['size'] for w in line) / len(line)`. -/
def trainAvgSize (line : List Word) : Rat :=
  (line.map Word.size).sum / (line.length : Rat)

/-- The empty result emitted for a failed document,
`{"title": "", "outline": []}`. -/
def emptyResult : ExtractionResult := { title := "", outline := [] }

/-- The batch loop of `main.py`: process the documents in order; a
document whose extraction succeeds contributes its result and one success
count, a document whose extraction raises contributes the empty result
and one failure count; the loop never aborts. -/
def processBatch (runOne : α → Except String ExtractionResult) :
    List α → List ExtractionResult × Nat × Nat
  | [] => ([], 0, 0)
  | d :: ds =>
    let rest := processBatch runOne ds
    match runOne d with
    | .ok r => (r :: rest.1, rest.2.1 + 1, rest.2.2)
    | .error _ => (emptyResult :: rest.1, rest.2.1, rest.2.2 + 1)

/-- Fixture: a one-span unit whose parser-reported size is fractional. -/
def spanUnit : Span :=
  { text := "A", size := mkRat 62 5, font := "Helvetica", bbox := (10, 20, 100, 30), page_num := 1 }

/-- Fixture: the same one-word unit as seen by the training encoder. -/
def wordUnit : Word :=
  { text := "A", size := mkRat 62 5, fontname := "Helvetica", x0 := 10, top := 20 }

/-- Fixture: a large bold block on page 1 with text "T". -/
def blkTitle : TextBlock :=
  { text := "T", font_size := 20, is_bold := true, bbox := (10, 5, 200, 25), page_num := 1 }

/-- Fixture: a medium block on page 1 with text "Intro". -/
def blkHeadA : TextBlock :=
  { text := "Intro", font_size := 15, is_bold := true, bbox := (10, 50, 150, 60), page_num := 1 }

/-- Fixture: a medium block on page 2 whose text repeats the title "T". -/
def blkHeadT : TextBlock :=
  { text := "T", font_size := 15, is_bold := true, bbox := (10, 10, 150, 20), page_num := 2 }

/-- Fixture: a small body block on page 1. -/
def blkBody : TextBlock :=
  { text := "body", font_size := 10, is_bold := false, bbox := (10, 80, 150, 90), page_num := 1 }

/-- Fixture classifier: font size at least 20 is `Title`, at least 14 is
`heading`, anything else is `other`. -/
def bcBySize : TextBlock → String := fun b =>
  if 20 ≤ b.font_size then "Title" else if 14 ≤ b.font_size then "heading" else "other"

/-- Fixture classifier emitting only the lowercase dataset vocabulary. -/
def bcLower : TextBlock → String := fun b =>
  if 20 ≤ b.font_size then "title" else if 14 ≤ b.font_size then "heading" else "body_text"

/-- Fixture classifier that labels every block `other`. -/
def bcOther : TextBlock → String := fun _ => "other"

/-- Fixture level classifier assigning `H1` everywhere. -/
def lcConst : TextBlock → String := fun _ => "H1"

/-- Fixture level classifier assigning `H2` everywhere. -/
def lcConst2 : TextBlock → String := fun _ => "H2"

/-- Fixture: a span whose text is whitespace only. -/
def spanBlank : Span :=
  { text := "  ", size := 10, font := "F", bbox := (0, 0, 0, 0), page_num := 1 }

/-! Stable-sort infrastructure. -/

theorem mem_sInsert {le : α → α → Bool} {a x : α} {l : List α} :
    x ∈ sInsert le a l ↔ x = a ∨ x ∈ l := by
  induction l with
  | nil => simp [sInsert]
  | cons b bs ih =>
    simp only [sInsert]
    by_cases h : le a b
    · simp [h, List.mem_cons]
    · simp [h, List.mem_cons, ih]
      tauto

theorem sInsert_perm (le : α → α → Bool) (a : α) (l : List α) :
    List.Perm (sInsert le a l) (a :: l) := by
  induction l with
  | nil => rfl
  | cons b bs ih =>
    simp only [sInsert]
    by_cases h : le a b
    · simp [h]
    · simp only [h, if_neg, Bool.false_eq_true, not_false_iff]
      exact (ih.cons b).trans (List.Perm.swap a b bs)

theorem sSort_perm (le : α → α → Bool) (l : List α) : List.Perm (sSort le l) l := by
  induction l with
  | nil => rfl
  | cons a as ih => exact (sInsert_perm le a (sSort le as)).trans (ih.cons a)

theorem mem_sSort {le : α → α → Bool} {x : α} {l : List α} :
    x ∈ sSort le l ↔ x ∈ l :=
  (sSort_perm le l).mem_iff

theorem sSort_nil_iff {le : α → α → Bool} {l : List α} :
    sSort le l = [] ↔ l = [] := by
  constructor
  · intro h
    have := (sSort_perm le l).length_eq
    rw [h] at this
    exact List.length_eq_zero.mp this.symm
  · intro h
    subst h
    rfl

theorem sorted_sInsert (le : α → α → Bool)
    (htrans : ∀ a b c, le a b = true → le b c = true → le a c = true)
    (htotal : ∀ a b, le a b = true ∨ le b a = true) (a : α) (l : List α)
    (h : l.Pairwise (fun x y => le x y = true)) :
    (sInsert le a l).Pairwise (fun x y => le x y = true) := by
  induction l with
  | nil => simp [sInsert]
  | cons b bs ih =>
    rcases List.pairwise_cons.mp h with ⟨hb, hbs⟩
    simp only [sInsert]
    by_cases hab : le a b = true
    · simp only [hab, if_true]
      refine List.pairwise_cons.mpr ⟨?_, h⟩
      intro x hx
      rcases List.mem_cons.mp hx with rfl | hx
      · exact hab
      · exact htrans a b x hab (hb x hx)
    · simp only [hab, if_false, Bool.false_eq_true]
      refine List.pairwise_cons.mpr ⟨?_, ih hbs⟩
      intro x hx
      rcases mem_sInsert.mp hx with rfl | hx
      · rcases htotal x b with h1 | h1
        · exact absurd h1 hab
        · exact h1
      · exact hb x hx

theorem sorted_sSort (le : α → α → Bool)
    (htrans : ∀ a b c, le a b = true → le b c = true → le a c = true)
    (htotal : ∀ a b, le a b = true ∨ le b a = true) (l : List α) :
    (sSort le l).Pairwise (fun x y => le x y = true) := by
  induction l with
  | nil => simp [sSort]
  | cons a as ih => exact sorted_sInsert le htrans htotal a (sSort le as) ih

theorem filter_sInsert_neg (le : α → α → Bool) (p : α → Bool) (a : α)
    (l : List α) (h : p a = false) :
    (sInsert le a l).filter p = l.filter p := by
  induction l with
  | nil => simp [sInsert, h]
  | cons b bs ih =>
    simp only [sInsert]
    by_cases hab : le a b = true
    · simp [hab, List.filter_cons, h]
    · simp only [hab, if_false, Bool.false_eq_true, List.filter_cons, ih]

theorem filter_sInsert_pos (le : α → α → Bool) (p : α → Bool) (a : α)
    (l : List α) (hp : ∀ b ∈ l, p b = true → le a b = true) (h : p a = true) :
    (sInsert le a l).filter p = a :: l.filter p := by
  induction l with
  | nil => simp [sInsert, h]
  | cons b bs ih =>
    simp only [sInsert]
    by_cases hab : le a b = true
    · simp [hab, List.filter_cons, h]
    · have hpb : p b = false := by
        by_contra hne
        exact hab (hp b (List.mem_cons_self b bs) (by simpa using hne))
      have := ih (fun x hx hpx => hp x (List.mem_cons_of_mem b hx) hpx)
      simp only [hab, if_false, Bool.false_eq_true, List.filter_cons, hpb, this]

theorem filter_sSort (le : α → α → Bool) (p : α → Bool)
    (hp : ∀ a b, p a = true → p b = true → le a b = true) (l : List α) :
    (sSort le l).filter p = l.filter p := by
  induction l with
  | nil => rfl
  | cons a as ih =>
    simp only [sSort]
    by_cases ha : p a = true
    · rw [filter_sInsert_pos le p a (sSort le as)
        (fun b _ hpb => hp a b ha hpb) ha, ih, List.filter_cons, if_pos ha]
    · have ha' : p a = false := by simpa using ha
      rw [filter_sInsert_neg le p a (sSort le as) ha', ih, List.filter_cons]
      simp [ha']

theorem sSort_head_le (le : α → α → Bool)
    (hrefl : ∀ a, le a a = true)
    (htrans : ∀ a b c, le a b = true → le b c = true → le a c = true)
    (htotal : ∀ a b, le a b = true ∨ le b a = true)
    {l : List α} {b : α} {rest : List α}
    (h : sSort le l = b :: rest) : ∀ w ∈ l, le b w = true := by
  intro w hw
  have hmem : w ∈ b :: rest := by
    rw [← h]
    exact mem_sSort.mpr hw
  have hs := sorted_sSort le htrans htotal l
  rw [h] at hs
  rcases List.pairwise_cons.mp hs with ⟨hb, _⟩
  rcases List.mem_cons.mp hmem with rfl | hmem
  · exact hrefl w
  · exact hb w hmem

/-! Properties of the two sort keys. -/

theorem pageYLe_refl (a : TextBlock) : pageYLe a a = true := by
  simp [pageYLe]

theorem pageYLe_trans (a b c : TextBlock)
    (h1 : pageYLe a b = true) (h2 : pageYLe b c = true) : pageYLe a c = true := by
  simp only [pageYLe, decide_eq_true_eq] at h1 h2 ⊢
  rcases h1 with h1 | ⟨h1, h1'⟩ <;> rcases h2 with h2 | ⟨h2, h2'⟩
  · exact Or.inl (h1.trans h2)
  · exact Or.inl (h2 ▸ h1)
  · exact Or.inl (h1 ▸ h2)
  · exact Or.inr ⟨h1.trans h2, h1'.trans h2'⟩

theorem pageYLe_total (a b : TextBlock) : pageYLe a b = true ∨ pageYLe b a = true := by
  simp only [pageYLe, decide_eq_true_eq]
  rcases Nat.lt_trichotomy a.page_num b.page_num with h | h | h
  · exact Or.inl (Or.inl h)
  · rcases le_total (bboxY1 a) (bboxY1 b) with hy | hy
    · exact Or.inl (Or.inr ⟨h, hy⟩)
    · exact Or.inr (Or.inr ⟨h.symm, hy⟩)
  · exact Or.inr (Or.inl h)

theorem fontDescLe_refl (a : TextBlock) : fontDescLe a a = true := by
  simp [fontDescLe]

theorem fontDescLe_trans (a b c : TextBlock)
    (h1 : fontDescLe a b = true) (h2 : fontDescLe b c = true) : fontDescLe a c = true := by
  simp only [fontDescLe, decide_eq_true_eq] at h1 h2 ⊢
  rcases h1 with h1 | ⟨h1, h1'⟩ <;> rcases h2 with h2 | ⟨h2, h2'⟩
  · exact Or.inl (h2.trans h1)
  · exact Or.inl (h2 ▸ h1)
  · exact Or.inl (h1 ▸ h2)
  · exact Or.inr ⟨h1.trans h2, h1'.trans h2'⟩

theorem fontDescLe_total (a b : TextBlock) :
    fontDescLe a b = true ∨ fontDescLe b a = true := by
  simp only [fontDescLe, decide_eq_true_eq]
  rcases lt_trichotomy a.font_size b.font_size with h | h | h
  · exact Or.inr (Or.inl h)
  · rcases le_total (bboxY1 a) (bboxY1 b) with hy | hy
    · exact Or.inl (Or.inr ⟨h, hy⟩)
    · exact Or.inr (Or.inr ⟨h.symm, hy⟩)
  · exact Or.inl (Or.inl h)

theorem pairLe_refl (a : TextBlock × String) : pairLe a a = true :=
  pageYLe_refl a.1

theorem pairLe_trans (a b c : TextBlock × String)
    (h1 : pairLe a b = true) (h2 : pairLe b c = true) : pairLe a c = true :=
  pageYLe_trans a.1 b.1 c.1 h1 h2

theorem pairLe_total (a b : TextBlock × String) :
    pairLe a b = true ∨ pairLe b a = true :=
  pageYLe_total a.1 b.1

/-! Bridging lemmas about the pipeline. -/

theorem titleOf_nil (bc : TextBlock → String) : titleOf bc [] = "" := rfl

theorem extract_of_ne_nil (bc lc : TextBlock → String) {blocks : List TextBlock}
    (h : blocks ≠ []) :
    extract bc lc blocks =
      { title := titleOf bc blocks
        outline := dedupTitle (titleOf bc blocks) (preOutline bc lc blocks) } := by
  simp [extract, h]

theorem titleBlocksOf_eq_nil {bc : TextBlock → String} {blocks : List TextBlock}
    (h : ∀ b ∈ blocks, bc b ≠ "Title") : titleBlocksOf bc blocks = [] := by
  simp only [titleBlocksOf, List.filter_eq_nil_iff, decide_eq_true_eq]
  exact h

/-! Claim theorems. -/

/-- C1: with a non-empty resolved title and a non-empty assembled outline,
the first entry is removed exactly when its text equals the title, in
which case the produced outline is precisely the tail of the assembled
one (so every deeper entry, including one whose text equals the title, is
retained, and at most one entry is ever removed); when the head's text
differs from the title the outline is unchanged. -/
theorem title_dedup_head_only (bc lc : TextBlock → String) (blocks : List TextBlock)
    (ht : titleOf bc blocks ≠ "") (ho : preOutline bc lc blocks ≠ []) :
    ((preOutline bc lc blocks).head?.map OutlineEntry.text = some (titleOf bc blocks) →
      (extract bc lc blocks).outline = (preOutline bc lc blocks).tail) ∧
    ((preOutline bc lc blocks).head?.map OutlineEntry.text ≠ some (titleOf bc blocks) →
      (extract bc lc blocks).outline = preOutline bc lc blocks) := by
  have hb : blocks ≠ [] := by
    intro h
    subst h
    exact ht (titleOf_nil bc)
  rw [extract_of_ne_nil bc lc hb]
  cases hoc : preOutline bc lc blocks with
  | nil => exact absurd hoc ho
  | cons e rest =>
    constructor
    · intro h
      have he : e.text = titleOf bc blocks := by simpa using h
      simp [dedupTitle, ht, he]
    · intro h
      have he : ¬e.text = titleOf bc blocks := by simpa using h
      simp [dedupTitle, he]

/-- C1 witness: on a concrete document whose single heading repeats the
title at the head of the outline, that head is removed. -/
theorem title_dedup_head_only_witness :
    (titleOf bcBySize [blkTitle, blkHeadT] ≠ "" ∧
      preOutline bcBySize lcConst [blkTitle, blkHeadT] ≠ []) ∧
    (extract bcBySize lcConst [blkTitle, blkHeadT]).outline =
      (preOutline bcBySize lcConst [blkTitle, blkHeadT]).tail :=
  ⟨⟨by decide, by decide⟩,
    (title_dedup_head_only bcBySize lcConst [blkTitle, blkHeadT]
      (by decide) (by decide)).1 (by decide)⟩

/-- C2: the assembled outline is the stable `(page, vertical top)` sort of
the heading rows, projected to entries: the sorted rows are pairwise
non-decreasing in that key alone, and for every fixed key the rows
carrying it appear in exactly their input order (stability), so the
result is deterministic. -/
theorem outline_sorted_and_stable (hs : List (TextBlock × String)) :
    generateOutline hs = (sortedHeadings hs).map outlineEntryOf ∧
    (sortedHeadings hs).Pairwise (fun p q => pairLe p q = true) ∧
    ∀ (pg : Nat) (y : Rat),
      (sortedHeadings hs).filter (fun p => decide (p.1.page_num = pg ∧ bboxY1 p.1 = y)) =
        hs.filter (fun p => decide (p.1.page_num = pg ∧ bboxY1 p.1 = y)) := by
  refine ⟨rfl, sorted_sSort pairLe pairLe_trans pairLe_total hs, ?_⟩
  intro pg y
  apply filter_sSort
  intro a b ha hb
  simp only [decide_eq_true_eq] at ha hb
  simp only [pairLe, pageYLe, decide_eq_true_eq]
  exact Or.inr ⟨ha.1.trans hb.1.symm, le_of_eq (ha.2.trans hb.2.symm)⟩

/-- C3: when no row is labelled Title, the resolved title is the text of a
page-1 row of maximal font size, topmost among those of maximal size; an
empty page 1 resolves to the empty string. -/
theorem title_fallback_largest (bc lc : TextBlock → String) (blocks : List TextBlock)
    (h : ∀ b ∈ blocks, bc b ≠ "Title") :
    (firstPage blocks = [] → (extract bc lc blocks).title = "") ∧
    (firstPage blocks ≠ [] → ∃ b ∈ firstPage blocks,
      (extract bc lc blocks).title = b.text ∧
      (∀ w ∈ firstPage blocks, w.font_size ≤ b.font_size) ∧
      (∀ w ∈ firstPage blocks, w.font_size = b.font_size → bboxY1 b ≤ bboxY1 w)) := by
  have htb : titleBlocksOf bc blocks = [] := titleBlocksOf_eq_nil h
  by_cases hb : blocks = []
  · subst hb
    exact ⟨fun _ => rfl, fun hfp => absurd rfl hfp⟩
  · rw [extract_of_ne_nil bc lc hb]
    constructor
    · intro hfp
      show titleOf bc blocks = ""
      unfold titleOf extractTitle
      rw [htb, hfp]
      rfl
    · intro hfp
      cases hs : sSort fontDescLe (firstPage blocks) with
      | nil => exact absurd (sSort_nil_iff.mp hs) hfp
      | cons c rest =>
        have hc_mem : c ∈ firstPage blocks :=
          mem_sSort.mp (hs ▸ List.mem_cons_self c rest)
        have hmin :=
          sSort_head_le fontDescLe fontDescLe_refl fontDescLe_trans fontDescLe_total hs
        refine ⟨c, hc_mem, ?_, ?_, ?_⟩
        · show titleOf bc blocks = c.text
          unfold titleOf extractTitle
          rw [htb, hs]
          rfl
        · intro w hw
          have hle := hmin w hw
          simp only [fontDescLe, decide_eq_true_eq] at hle
          rcases hle with h1 | ⟨h1, _⟩
          · exact le_of_lt h1
          · exact le_of_eq h1.symm
        · intro w hw heq
          have hle := hmin w hw
          simp only [fontDescLe, decide_eq_true_eq] at hle
          rcases hle with h1 | ⟨_, h2⟩
          · exact absurd (heq ▸ h1) (lt_irrefl _)
          · exact h2

/-- C3 witness: with a classifier that labels everything `other`, the
title of a two-block page-1 document is resolved by the fallback. -/
theorem title_fallback_largest_witness :
    (∀ b ∈ [blkHeadA, blkBody], bcOther b ≠ "Title") ∧
    (firstPage [blkHeadA, blkBody] ≠ [] → ∃ b ∈ firstPage [blkHeadA, blkBody],
      (extract bcOther lcConst [blkHeadA, blkBody]).title = b.text ∧
      (∀ w ∈ firstPage [blkHeadA, blkBody], w.font_size ≤ b.font_size) ∧
      (∀ w ∈ firstPage [blkHeadA, blkBody],
        w.font_size = b.font_size → bboxY1 b ≤ bboxY1 w)) :=
  ⟨by decide, (title_fallback_largest bcOther lcConst [blkHeadA, blkBody] (by decide)).2⟩

/-- C4: when some row is labelled Title, the resolved title is the text of
a Title-labelled row minimal under `(page, vertical top)` among all
Title-labelled rows, and the Title subset is non-empty, so the fallback
heuristic is not consulted. -/
theorem title_primary_first (bc lc : TextBlock → String) (blocks : List TextBlock)
    (h : ∃ b ∈ blocks, bc b = "Title") :
    titleBlocksOf bc blocks ≠ [] ∧
    ∃ b ∈ titleBlocksOf bc blocks,
      (extract bc lc blocks).title = b.text ∧
      ∀ w ∈ blocks, bc w = "Title" →
        b.page_num < w.page_num ∨ (b.page_num = w.page_num ∧ bboxY1 b ≤ bboxY1 w) := by
  obtain ⟨b0, hb0, hl0⟩ := h
  have hmem : b0 ∈ titleBlocksOf bc blocks := by
    simp [titleBlocksOf, List.mem_filter, hb0, hl0]
  have hne : titleBlocksOf bc blocks ≠ [] := by
    intro hnil
    rw [hnil] at hmem
    exact List.not_mem_nil b0 hmem
  have hblocks : blocks ≠ [] := by
    intro hnil
    subst hnil
    exact List.not_mem_nil b0 hb0
  cases hs : sSort pageYLe (titleBlocksOf bc blocks) with
  | nil => exact absurd (sSort_nil_iff.mp hs) hne
  | cons c rest =>
    have hc_mem : c ∈ titleBlocksOf bc blocks :=
      mem_sSort.mp (hs ▸ List.mem_cons_self c rest)
    have hmin := sSort_head_le pageYLe pageYLe_refl pageYLe_trans pageYLe_total hs
    refine ⟨hne, c, hc_mem, ?_, ?_⟩
    · rw [extract_of_ne_nil bc lc hblocks]
      show titleOf bc blocks = c.text
      unfold titleOf extractTitle
      rw [hs]
      rfl
    · intro w hw hlw
      have hwmem : w ∈ titleBlocksOf bc blocks := by
        simp [titleBlocksOf, List.mem_filter, hw, hlw]
      have hle := hmin w hwmem
      simpa [pageYLe, decide_eq_true_eq] using hle

/-- C4 witness: on a concrete document with one Title-labelled block, the
resolved title is that block's text. -/
theorem title_primary_first_witness :
    (∃ b ∈ [blkTitle, blkHeadA], bcBySize b = "Title") ∧
    (titleBlocksOf bcBySize [blkTitle, blkHeadA] ≠ [] ∧
      ∃ b ∈ titleBlocksOf bcBySize [blkTitle, blkHeadA],
        (extract bcBySize lcConst [blkTitle, blkHeadA]).title = b.text ∧
        ∀ w ∈ [blkTitle, blkHeadA], bcBySize w = "Title" →
          b.page_num < w.page_num ∨
            (b.page_num = w.page_num ∧ bboxY1 b ≤ bboxY1 w)) :=
  ⟨by decide, title_primary_first bcBySize lcConst [blkTitle, blkHeadA] (by decide)⟩

/-- C5 counterexample: a concrete run in which a produced outline entry
has text equal to the resolved title — the title also appears as a
heading deeper than position 0, so the head-only rule keeps it. -/
theorem outline_can_repeat_title :
    ∃ e ∈ (extract bcBySize lcConst [blkTitle, blkHeadA, blkHeadT]).outline,
      e.text = (extract bcBySize lcConst [blkTitle, blkHeadA, blkHeadT]).title := by
  decide

/-- C5 amended: the only reconciliation between the title and the outline
is at the head: the produced outline equals the assembled outline, minus
its first entry exactly when the title is non-empty and that first
entry's text equals the title; deeper entries equal to the title are
retained. -/
theorem dedup_removes_at_most_head (bc lc : TextBlock → String) (blocks : List TextBlock) :
    (extract bc lc blocks).outline =
      if titleOf bc blocks ≠ "" ∧
          (preOutline bc lc blocks).head?.map OutlineEntry.text = some (titleOf bc blocks)
      then (preOutline bc lc blocks).tail
      else preOutline bc lc blocks := by
  by_cases hb : blocks = []
  · subst hb
    simp [extract, titleOf_nil, preOutline]
  · rw [extract_of_ne_nil bc lc hb]
    cases hoc : preOutline bc lc blocks with
    | nil => simp [dedupTitle]
    | cons e rest =>
      simp only [dedupTitle, List.head?_cons, Option.map_some', Option.some.injEq,
        List.tail_cons]

/-- C6: the training-time encoder keeps the unrounded arithmetic mean of
the unit's font sizes while the inference-time encoder rounds each span's
size to the nearest integer; on a one-span unit of reported size 12.4 the
training feature is 62/5 and the inference feature is 12, so the two
encoders do not compute equal avg_size values. -/
theorem avg_size_quantization_divergence :
    (mkTextBlock spanUnit).font_size = 12 ∧
    trainAvgSize [wordUnit] = mkRat 62 5 ∧
    trainAvgSize [wordUnit] ≠ ((mkTextBlock spanUnit).font_size : Rat) := by
  refine ⟨by decide, ?_, ?_⟩
  · simp [trainAvgSize, wordUnit, Rat.mkRat_eq_div]
  · have h12 : (mkTextBlock spanUnit).font_size = 12 := by decide
    rw [h12]
    simp only [trainAvgSize, wordUnit]
    norm_num

/-- C7: a document with no extractable spans (every span's stripped text
is empty) yields exactly the empty result, independently of the injected
classifiers, which are never consulted. -/
theorem empty_document_empty_result (bc bc' lc lc' : TextBlock → String)
    (spans : List Span) (h : ∀ s ∈ spans, pyStrip s.text = "") :
    extractDoc bc lc spans = emptyResult ∧
    extractDoc bc lc spans = extractDoc bc' lc' spans := by
  have hg : getTextBlocks spans = [] := by
    unfold getTextBlocks
    rw [List.filter_eq_nil_iff.mpr ?_]
    · rfl
    · intro s hs
      simp [h s hs]
  constructor
  · unfold extractDoc
    rw [hg]
    rfl
  · unfold extractDoc
    rw [hg]
    rfl

/-- C7 witness: a document consisting of one whitespace-only span yields
the empty result under either of two distinct classifier pairs. -/
theorem empty_document_empty_result_witness :
    (∀ s ∈ [spanBlank], pyStrip s.text = "") ∧
    (extractDoc bcBySize lcConst [spanBlank] = emptyResult ∧
      extractDoc bcBySize lcConst [spanBlank] = extractDoc bcOther lcConst2 [spanBlank]) :=
  ⟨by decide,
    empty_document_empty_result bcBySize bcOther lcConst lcConst2 [spanBlank] (by decide)⟩

/-- C8: the level classifier acts exactly on the heading-labelled subset:
if no row is labelled heading the outline is empty (no error), and two
level classifiers that agree on the heading-labelled rows produce
identical extraction results, so Title- and Other-labelled rows never
influence or reach the level classifier. -/
theorem level_classifier_scope (bc lc lc' : TextBlock → String)
    (blocks : List TextBlock) :
    ((∀ b ∈ blocks, bc b ≠ "heading") → (extract bc lc blocks).outline = []) ∧
    ((∀ b ∈ blocks, bc b = "heading" → lc b = lc' b) →
      extract bc lc blocks = extract bc lc' blocks) := by
  constructor
  · intro h
    by_cases hb : blocks = []
    · subst hb
      rfl
    · rw [extract_of_ne_nil bc lc hb]
      have hfil : blocks.filter (fun b => decide (bc b = "heading")) = [] := by
        rw [List.filter_eq_nil_iff]
        intro b hbmem
        simp [h b hbmem]
      show dedupTitle _ (preOutline bc lc blocks) = []
      rw [preOutline, hfil]
      rfl
  · intro h
    have hpairs : headingPairs bc lc blocks = headingPairs bc lc' blocks := by
      unfold headingPairs
      apply List.map_congr_left
      intro b hbmem
      have hm := (List.mem_filter.mp hbmem).1
      have hbc : bc b = "heading" := by
        simpa using (List.mem_filter.mp hbmem).2
      rw [h b hm hbc]
    have hpre : preOutline bc lc blocks = preOutline bc lc' blocks := by
      unfold preOutline
      rw [hpairs]
    unfold extract
    rw [hpre]

/-- C8 witness: a heading-free document gets an empty outline without
error, and two level classifiers that differ only outside the heading
subset produce the same result. -/
theorem level_classifier_scope_witness :
    (extract bcOther lcConst [blkBody]).outline = [] ∧
    extract bcBySize lcConst [blkTitle, blkBody] =
      extract bcBySize lcConst2 [blkTitle, blkBody] :=
  ⟨(level_classifier_scope bcOther lcConst lcConst [blkBody]).1 (by decide),
    (level_classifier_scope bcBySize lcConst lcConst2 [blkTitle, blkBody]).2 (by decide)⟩

/-- C9: in a batch run each document's emitted result depends only on that
document — a failing document contributes exactly the empty result, the
batch is never aborted (one result per input document, in order), and the
run reports the number of successes and failures, which sum to the batch
size. -/
theorem batch_isolation (runOne : α → Except String ExtractionResult) (docs : List α) :
    (processBatch runOne docs).1.length = docs.length ∧
    (∀ i : Nat, (processBatch runOne docs).1[i]? =
      docs[i]?.map (fun d =>
        match runOne d with
        | .ok r => r
        | .error _ => emptyResult)) ∧
    (processBatch runOne docs).2.1 =
      (docs.filter (fun d =>
        match runOne d with
        | .ok _ => true
        | .error _ => false)).length ∧
    (processBatch runOne docs).2.2 =
      (docs.filter (fun d =>
        match runOne d with
        | .ok _ => false
        | .error _ => true)).length ∧
    (processBatch runOne docs).2.1 + (processBatch runOne docs).2.2 = docs.length := by
  induction docs with
  | nil => exact ⟨rfl, fun i => rfl, rfl, rfl, rfl⟩
  | cons d ds ih =>
    obtain ⟨ih1, ih2, ih3, ih4, ih5⟩ := ih
    cases hr : runOne d with
    | ok r =>
      refine ⟨?_, ?_, ?_, ?_, ?_⟩
      · simp [processBatch, hr, ih1]
      · intro i
        cases i with
        | zero => simp [processBatch, hr]
        | succ n => simp [processBatch, hr, ih2 n]
      · simp [processBatch, hr, List.filter_cons, ih3]
      · simp [processBatch, hr, List.filter_cons, ih4]
      · simp only [processBatch, hr, List.length_cons]
        omega
    | error e =>
      refine ⟨?_, ?_, ?_, ?_, ?_⟩
      · simp [processBatch, hr, ih1]
      · intro i
        cases i with
        | zero => simp [processBatch, hr]
        | succ n => simp [processBatch, hr, ih2 n]
      · simp [processBatch, hr, List.filter_cons, ih3]
      · simp [processBatch, hr, List.filter_cons, ih4]
      · simp only [processBatch, hr, List.length_cons]
        omega

/-- C10: the extractor compares block labels case-sensitively against
`'Title'`, so under a classifier whose vocabulary is the lowercase
dataset labelling (`title`/`heading`/`body_text`) the primary title path
is never taken — the Title subset is empty and the title is always the
fallback selection — and indeed `"title"` differs from `"Title"`. -/
theorem lowercase_vocab_forces_fallback (bc lc : TextBlock → String)
    (blocks : List TextBlock)
    (h : ∀ b ∈ blocks, bc b = "title" ∨ bc b = "heading" ∨ bc b = "body_text") :
    titleBlocksOf bc blocks = [] ∧
    (extract bc lc blocks).title = extractTitle [] blocks ∧
    ("title" : String) ≠ "Title" := by
  have htb : titleBlocksOf bc blocks = [] := by
    apply titleBlocksOf_eq_nil
    intro b hb
    rcases h b hb with h1 | h1 | h1 <;> rw [h1] <;> decide
  refine ⟨htb, ?_, by decide⟩
  by_cases hb : blocks = []
  · subst hb
    rfl
  · rw [extract_of_ne_nil bc lc hb]
    show titleOf bc blocks = extractTitle [] blocks
    unfold titleOf
    rw [htb]

/-- C10 witness: with the lowercase-vocabulary classifier the title of a
concrete document is resolved by the fallback selection. -/
theorem lowercase_vocab_forces_fallback_witness :
    (∀ b ∈ [blkTitle, blkBody],
      bcLower b = "title" ∨ bcLower b = "heading" ∨ bcLower b = "body_text") ∧
    (titleBlocksOf bcLower [blkTitle, blkBody] = [] ∧
      (extract bcLower lcConst [blkTitle, blkBody]).title =
        extractTitle [] [blkTitle, blkBody] ∧
      ("title" : String) ≠ "Title") :=
  ⟨by decide, lowercase_vocab_forces_fallback bcLower lcConst [blkTitle, blkBody] (by decide)⟩

end PDF
